import Mathlib

/-!
Verification of the verse-drawing application (`src/database.py`, `src/app.py`).

The SQLite tables are embedded as Lean lists, the CRUD functions of
`database.py` as pure state-passing functions, and the `/api/draw-verse`
handler of `app.py` as a function from an optional request body to a
response together with the successor database state.  The random choice
`random.choice(verses)` is made explicit by threading the random index as
a parameter.  An uncaught `sqlite3.IntegrityError` (the UNIQUE constraint
on `user_draws.email`) is represented by a dedicated outcome constructor;
since the failing transaction is never committed, the database state is
returned unchanged in that case.
-/

namespace Verset

/-- Character strings are modelled as lists of characters so that the
normalisation chain `email.lower().strip()` from `draw_verse_for_user`
can be reasoned about elementwise. -/
abbrev Str := List Char

/-- Model of Python `str.lower()` (ASCII case folding, matching the
ASCII-only email alphabet accepted by the validator). -/
def lowerStr (s : Str) : Str := s.map Char.toLower

/-- Model of Python `str.strip()`: drop leading and trailing whitespace. -/
def stripStr (s : Str) : Str :=
  ((s.dropWhile Char.isWhitespace).reverse.dropWhile Char.isWhitespace).reverse

/-- The normalisation applied at the top of `draw_verse_for_user`:
`email.lower().strip()` (lower first, then strip). -/
def normalizeEmail (s : Str) : Str := stripStr (lowerStr s)

/-- A row of the `verses` table (`id INTEGER PRIMARY KEY AUTOINCREMENT`,
`text`, `reference`; the `created_at` timestamp carries no information
used by any operation and is omitted). -/
structure Verse where
  id : Nat
  text : String
  reference : String
deriving Repr, DecidableEq

/-- A row of the `user_draws` table (`email TEXT UNIQUE`, `verse_id`;
`drawn_at` omitted as above). -/
structure DrawRow where
  email : Str
  verse_id : Nat
deriving Repr, DecidableEq

/-- The persistent state: the `verses` table in rowid (insertion) order,
the AUTOINCREMENT counter for `verses.id`, and the `user_draws` table in
insertion order. -/
structure DB where
  verses : List Verse
  nextVerseId : Nat
  user_draws : List DrawRow
deriving Repr, DecidableEq

/-- Insert a verse into a list kept in descending id order
(used to model `ORDER BY id DESC`). -/
def insertDesc (v : Verse) : List Verse → List Verse
  | [] => [v]
  | w :: ws => if w.id ≤ v.id then v :: w :: ws else w :: insertDesc v ws

/-- Sort a list of verses by id, descending. -/
def sortByIdDesc (vs : List Verse) : List Verse := vs.foldr insertDesc []

/-- `database.get_all_verses`: `SELECT id, text, reference, created_at
FROM verses ORDER BY id DESC`. -/
def get_all_verses (db : DB) : List Verse := sortByIdDesc db.verses

/-- `database.add_verse`: INSERT a row, return `cursor.lastrowid`
(the fresh AUTOINCREMENT id). -/
def add_verse (db : DB) (text reference : String) : Nat × DB :=
  (db.nextVerseId,
   { db with
       verses := db.verses ++ [⟨db.nextVerseId, text, reference⟩],
       nextVerseId := db.nextVerseId + 1 })

/-- `database.delete_verse`: `DELETE FROM verses WHERE id = ?`, returning
`cursor.rowcount > 0`. -/
def delete_verse (db : DB) (verse_id : Nat) : Bool × DB :=
  (db.verses.any (fun v => v.id = verse_id),
   { db with verses := db.verses.filter (fun v => v.id ≠ verse_id) })

/-- `database.get_verse_by_id`: `SELECT id, text, reference FROM verses
WHERE id = ?`, `None` when no row matches. -/
def get_verse_by_id (db : DB) (verse_id : Nat) : Option Verse :=
  db.verses.find? (fun v => v.id = verse_id)

/-- `database.check_user_draw`: join `user_draws` with `verses` on
`verse_id = id`, filtered by `email = email.lower()`.  A ledger row whose
bound verse has been deleted produces no join result, hence `none`. -/
def check_user_draw (db : DB) (email : Str) : Option Verse :=
  match db.user_draws.find? (fun r => r.email = lowerStr email) with
  | none => none
  | some r => db.verses.find? (fun v => v.id = r.verse_id)

/-- The result dictionary returned by `draw_verse_for_user` on success. -/
structure DrawResult where
  verse : Verse
  already_drawn : Bool
deriving Repr, DecidableEq

/-- Outcome of `draw_verse_for_user`: a result dictionary, `None`
(empty pool), or an uncaught `sqlite3.IntegrityError` from the UNIQUE
constraint on `user_draws.email`. -/
inductive DrawOutcome where
  | ok (r : DrawResult)
  | unavailable
  | integrityError
deriving Repr, DecidableEq

/-- The verse carried by a successful outcome, if any. -/
def DrawOutcome.verse? : DrawOutcome → Option Verse
  | .ok r => some r.verse
  | .unavailable => none
  | .integrityError => none

/-- Model of `random.choice(verses)` on the current pool, driven by the
random index `k`: `none` exactly when the pool is empty, otherwise the
entry at position `k % length`. -/
def pickVerse (db : DB) (k : Nat) : Option Verse :=
  db.verses.get? (k % db.verses.length)

/-- `database.draw_verse_for_user`: normalise the email, consult the
ledger, and on a miss pick a random verse and INSERT the ledger row.
The INSERT is guarded by the UNIQUE constraint on `email`: if a row with
that email already exists in storage, the statement raises and nothing
is committed. -/
def draw_verse_for_user (db : DB) (email : Str) (k : Nat) : DrawOutcome × DB :=
  match check_user_draw db (normalizeEmail email) with
  | some v => (.ok ⟨v, true⟩, db)
  | none =>
    match pickVerse db k with
    | none => (.unavailable, db)
    | some chosen =>
      if db.user_draws.any (fun r => r.email = normalizeEmail email) then
        (.integrityError, db)
      else
        (.ok ⟨chosen, false⟩,
         { db with user_draws :=
             db.user_draws ++ [⟨normalizeEmail email, chosen.id⟩] })

/-! The `app.py` layer: email validation and the `/api/draw-verse` handler. -/

/-- A character of the regex class `[a-zA-Z0-9._%+-]` (the local part of
the pattern in `app.is_valid_email`). -/
def isLocalChar (c : Char) : Bool :=
  c.isAlpha || c.isDigit || c = '.' || c = '_' || c = '%' || c = '+' || c = '-'

/-- A character of the regex class `[a-zA-Z0-9.-]` (the domain part of
the pattern in `app.is_valid_email`). -/
def isDomainChar (c : Char) : Bool :=
  c.isAlpha || c.isDigit || c = '.' || c = '-'

/-- Matcher for the domain piece of the anchored pattern, the part after
the `@`.  A string matches this piece ending at the end of input exactly
when its maximal trailing run of letters has length at least 2, is
preceded by a literal dot, and the nonempty remainder before that dot
consists of domain characters (any shorter trailing letter run is
preceded by a letter, never a dot, so only the maximal run can back the
literal dot of the pattern). -/
def matchDomain (d : Str) : Bool :=
  2 ≤ (d.reverse.takeWhile Char.isAlpha).length &&
    match d.reverse.dropWhile Char.isAlpha with
    | '.' :: rest => !rest.isEmpty && rest.all isDomainChar
    | _ => false

/-- Matcher for the regex body without the end-of-string behaviour of
Python's dollar anchor.  The plus-quantified local class contains no
at-sign, so the at-sign of the pattern can only consume the first
non-local character of the subject, which therefore must be an at-sign
preceded by at least one local character. -/
def matchCore (s : Str) : Bool :=
  match s.dropWhile isLocalChar with
  | '@' :: domain => !(s.takeWhile isLocalChar).isEmpty && matchDomain domain
  | _ => false

/-- Python's dollar anchor matches at the end of the string or just
before a single newline at the end of the string; `re.match` does not
require the subject to be consumed past the anchor. -/
def stripFinalNewline (s : Str) : Str :=
  match s.reverse with
  | '\n' :: rest => rest.reverse
  | _ => s

/-- `app.is_valid_email`: `re.match` of the anchored pattern against the
given string. -/
def is_valid_email (s : Str) : Bool :=
  matchCore (stripFinalNewline s)

/-- The JSON response of the `/api/draw-verse` handler, reduced to the
fields the claims mention (HTTP status, `success`, `verse`,
`already_drawn`).  An uncaught exception escaping the handler is
represented as a 500 response. -/
structure ApiResponse where
  status : Nat
  success : Bool
  verse : Option Verse
  already_drawn : Option Bool
deriving Repr, DecidableEq

/-- `app.draw_verse` (`POST /api/draw-verse`): reject a missing email
with 400, strip it, reject an invalid format with 400, then delegate to
`draw_verse_for_user`; `None` from the database layer becomes a 404. -/
def draw_verse_endpoint (db : DB) (body_email : Option Str) (k : Nat) :
    ApiResponse × DB :=
  match body_email with
  | none => (⟨400, false, none, none⟩, db)
  | some raw =>
    let email := stripStr raw
    if is_valid_email email then
      match draw_verse_for_user db email k with
      | (.ok r, db') => (⟨200, true, some r.verse, some r.already_drawn⟩, db')
      | (.unavailable, db') => (⟨404, false, none, none⟩, db')
      | (.integrityError, db') => (⟨500, false, none, none⟩, db')
    else
      (⟨400, false, none, none⟩, db)

/-! Interleaving model for concurrent draw requests.  A request is split
at its storage round-trips: the first step performs the ledger lookup
and, on a miss, the pool read together with the random choice; the
second step performs the INSERT, which the UNIQUE constraint on `email`
turns into insert-or-raise.  Draws never write the `verses` table, so no
finer split changes what interleavings of draws can observe. -/

/-- Progress of one in-flight `draw_verse_for_user` call. -/
inductive Phase where
  | ready
  | pending (chosen : Verse)
  | finished (out : DrawOutcome)
deriving Repr, DecidableEq

/-- One in-flight draw request: its raw email, its random index, and its
progress. -/
structure Session where
  email : Str
  k : Nat
  phase : Phase
deriving Repr, DecidableEq

/-- Execute the next storage round-trip of a session (a finished session
does nothing). -/
def sessionStep (db : DB) (s : Session) : DB × Session :=
  match s.phase with
  | .finished _ => (db, s)
  | .ready =>
    match check_user_draw db (normalizeEmail s.email) with
    | some v => (db, { s with phase := .finished (.ok ⟨v, true⟩) })
    | none =>
      match pickVerse db s.k with
      | none => (db, { s with phase := .finished .unavailable })
      | some chosen => (db, { s with phase := .pending chosen })
  | .pending chosen =>
    if db.user_draws.any (fun r => r.email = normalizeEmail s.email) then
      (db, { s with phase := .finished .integrityError })
    else
      ({ db with user_draws :=
           db.user_draws ++ [⟨normalizeEmail s.email, chosen.id⟩] },
       { s with phase := .finished (.ok ⟨chosen, false⟩) })

/-- Run two sessions under a schedule: `true` lets the first session take
its next step, `false` the second. -/
def runSched : List Bool → DB → Session → Session → DB × Session × Session
  | [], db, a, b => (db, a, b)
  | true :: rest, db, a, b =>
    let p := sessionStep db a
    runSched rest p.1 p.2 b
  | false :: rest, db, a, b =>
    let p := sessionStep db b
    runSched rest p.1 a p.2

/-- The ledger rows recorded for a given (already normalised) email. -/
def rowsFor (db : DB) (e : Str) : List DrawRow :=
  db.user_draws.filter (fun r => r.email = e)

/-- Modelled from the spec: the set of strings the spec says the email
validator accepts, word for word from §4.3 — local-part characters, then
an at-sign, then a domain with at least one dot whose final label is at
least 2 letters.  Declared separately from `is_valid_email` (which is
transcribed from the code) so that the two can be compared. -/
def specEmailShape (s : Str) : Prop :=
  ∃ l d t : Str,
    s = l ++ ['@'] ++ d ++ ['.'] ++ t ∧
    l ≠ [] ∧ l.all isLocalChar ∧
    d ≠ [] ∧ d.all isDomainChar ∧
    2 ≤ t.length ∧ t.all Char.isAlpha

/-! Supporting lemmas. -/

/-- ASCII case folding is idempotent. -/
theorem toLower_idem (c : Char) : (Char.toLower c).toLower = Char.toLower c := by
  simp only [Char.toLower]
  split
  case isTrue h =>
    have hv : (c.toNat + 32).isValidChar := by
      left
      omega
    have ht : (Char.ofNat (c.toNat + 32)).toNat = c.toNat + 32 := by
      unfold Char.ofNat
      rw [dif_pos hv]
      rfl
    have hno : ¬((Char.ofNat (c.toNat + 32)).toNat ≥ 65 ∧
        (Char.ofNat (c.toNat + 32)).toNat ≤ 90) := by
      rw [ht]
      omega
    simp [hno]
  case isFalse h =>
    simp [h]

/-- Stripping only removes characters. -/
theorem mem_of_mem_stripStr {c : Char} {s : Str} (h : c ∈ stripStr s) : c ∈ s := by
  unfold stripStr at h
  rw [List.mem_reverse] at h
  have h1 : c ∈ (s.dropWhile Char.isWhitespace).reverse :=
    (List.dropWhile_sublist _).subset h
  rw [List.mem_reverse] at h1
  exact (List.dropWhile_sublist _).subset h1

/-- A normalised email is a fixed point of lowercasing, so the extra
`email.lower()` inside `check_user_draw` is the identity on the email
that `draw_verse_for_user` passes to it. -/
theorem lowerStr_normalizeEmail (s : Str) :
    lowerStr (normalizeEmail s) = normalizeEmail s := by
  unfold normalizeEmail
  have hfix : ∀ c ∈ stripStr (lowerStr s), Char.toLower c = c := by
    intro c hc
    have hmem : c ∈ lowerStr s := mem_of_mem_stripStr hc
    unfold lowerStr at hmem
    rw [List.mem_map] at hmem
    obtain ⟨c0, _, rfl⟩ := hmem
    exact toLower_idem c0
  calc lowerStr (stripStr (lowerStr s))
      = (stripStr (lowerStr s)).map id := List.map_congr_left hfix
    _ = stripStr (lowerStr s) := List.map_id _

/-- `find?` returns the head of the filtered list. -/
theorem find?_eq_head?_filter {α : Type} (p : α → Bool) (l : List α) :
    l.find? p = (l.filter p).head? := by
  induction l with
  | nil => rfl
  | cons x xs ih =>
    rw [List.find?_cons, List.filter_cons]
    cases h : p x
    · exact ih
    · rfl

/-- When a projection is injective on a list, `find?` by a projected
value returns the unique element carrying it. -/
theorem find?_key_of_nodup {α β : Type} [DecidableEq β] (key : α → β)
    (l : List α) (x : α) (kv : β) (hnd : (l.map key).Nodup)
    (hx : x ∈ l) (hkx : key x = kv) :
    l.find? (fun y => key y = kv) = some x := by
  induction l with
  | nil => cases hx
  | cons y ys ih =>
    rw [List.map_cons, List.nodup_cons] at hnd
    rcases List.mem_cons.mp hx with hxy | hxs
    · subst hxy
      simp [List.find?_cons, hkx]
    · have hky : (decide (key y = kv)) = false := by
        apply decide_eq_false
        intro hk
        exact hnd.1 (hk ▸ hkx ▸ List.mem_map_of_mem key hxs)
      simp only [List.find?_cons, hky]
      exact ih hnd.2 hxs

/-- The ledger lookup misses when no ledger row carries the normalised
email. -/
theorem check_user_draw_miss (db : DB) (email : Str)
    (hnew : ∀ r ∈ db.user_draws, r.email ≠ normalizeEmail email) :
    check_user_draw db (normalizeEmail email) = none := by
  unfold check_user_draw
  rw [lowerStr_normalizeEmail]
  rw [List.find?_eq_none.mpr]
  intro r hr
  simp only [decide_eq_true_eq]
  exact hnew r hr

/-- A first-time draw with a successful pick appends exactly one ledger
row binding the normalised email to the picked verse and reports it with
`already_drawn = false`. -/
theorem draw_fresh (db : DB) (email : Str) (k : Nat) (v : Verse)
    (hpick : pickVerse db k = some v)
    (hnew : ∀ r ∈ db.user_draws, r.email ≠ normalizeEmail email) :
    draw_verse_for_user db email k =
      (.ok ⟨v, false⟩,
       { db with user_draws :=
           db.user_draws ++ [⟨normalizeEmail email, v.id⟩] }) := by
  unfold draw_verse_for_user
  rw [check_user_draw_miss db email hnew, hpick]
  have hany : db.user_draws.any
      (fun r => r.email = normalizeEmail email) = false := by
    rw [List.any_eq_false]
    intro r hr
    simp only [decide_eq_true_eq]
    exact hnew r hr
  simp [hany]

/-- A draw for an identity whose ledger row is joinable returns the bound
verse with `already_drawn = true` and leaves the state untouched. -/
theorem draw_repeat (db : DB) (email : Str) (k : Nat) (row : DrawRow)
    (v : Verse)
    (hU : (db.user_draws.map DrawRow.email).Nodup)
    (hids : (db.verses.map Verse.id).Nodup)
    (hrow : row ∈ db.user_draws) (hre : row.email = normalizeEmail email)
    (hv : v ∈ db.verses) (hvid : v.id = row.verse_id) :
    draw_verse_for_user db email k = (.ok ⟨v, true⟩, db) := by
  have hchk : check_user_draw db (normalizeEmail email) = some v := by
    unfold check_user_draw
    rw [lowerStr_normalizeEmail]
    rw [find?_key_of_nodup DrawRow.email _ row _ hU hrow hre]
    exact find?_key_of_nodup Verse.id _ v _ hids hv hvid
  unfold draw_verse_for_user
  rw [hchk]

/-- Appending a ledger row with a previously unused email preserves
uniqueness of emails. -/
theorem nodup_emails_snoc (l : List DrawRow) (row : DrawRow)
    (hU : (l.map DrawRow.email).Nodup)
    (hnew : ∀ r ∈ l, r.email ≠ row.email) :
    ((l ++ [row]).map DrawRow.email).Nodup := by
  rw [List.map_append, List.nodup_append]
  refine ⟨hU, List.nodup_singleton _, ?_⟩
  intro a ha hb
  rw [List.mem_map] at ha
  obtain ⟨r, hr, rfl⟩ := ha
  simp only [List.map_cons, List.map_nil, List.mem_singleton] at hb
  exact hnew r hr hb

/-- A successful pick takes its verse from the current pool. -/
theorem pickVerse_mem {db : DB} {k : Nat} {v : Verse}
    (h : pickVerse db k = some v) : v ∈ db.verses :=
  List.get?_mem h

/-! Claim theorems. -/

/-- Claim C1: for a valid identity with a non-empty verse pool and no
existing ledger row, calling draw twice sequentially returns the same
verse both times, with `already_drawn = false` on the first call and
`true` on the second; the second call creates no new ledger row and
returns the state exactly as the first call left it. -/
theorem draw_twice_idempotent (db : DB) (email : Str) (k k' : Nat)
    (v : Verse)
    (hU : (db.user_draws.map DrawRow.email).Nodup)
    (hids : (db.verses.map Verse.id).Nodup)
    (hnew : ∀ r ∈ db.user_draws, r.email ≠ normalizeEmail email)
    (hpick : pickVerse db k = some v) :
    draw_verse_for_user db email k =
      (.ok ⟨v, false⟩,
       { db with user_draws :=
           db.user_draws ++ [⟨normalizeEmail email, v.id⟩] }) ∧
    draw_verse_for_user
        { db with user_draws :=
            db.user_draws ++ [⟨normalizeEmail email, v.id⟩] } email k' =
      (.ok ⟨v, true⟩,
       { db with user_draws :=
           db.user_draws ++ [⟨normalizeEmail email, v.id⟩] }) := by
  refine ⟨draw_fresh db email k v hpick hnew, ?_⟩
  apply draw_repeat _ email k' ⟨normalizeEmail email, v.id⟩ v
  · exact nodup_emails_snoc _ _ hU (fun r hr => hnew r hr)
  · exact hids
  · exact List.mem_append_right _ (List.mem_singleton_self _)
  · rfl
  · exact pickVerse_mem hpick
  · rfl

/-- Concrete pool, identity and states used by the witnesses. -/
def exV1 : Verse := ⟨1, "v1", "r1"⟩

/-- Second concrete verse. -/
def exV2 : Verse := ⟨2, "v2", "r2"⟩

/-- Concrete email `a@b.co`. -/
def exEmail : Str := ['a', '@', 'b', '.', 'c', 'o']

/-- Concrete database with two verses and an empty ledger. -/
def exDb : DB := ⟨[exV1, exV2], 3, []⟩

/-- Witness for C1 at the concrete database. -/
theorem draw_twice_idempotent_witness :
    draw_verse_for_user exDb exEmail 0 =
      (.ok ⟨exV1, false⟩,
       { exDb with user_draws :=
           exDb.user_draws ++ [⟨normalizeEmail exEmail, exV1.id⟩] }) ∧
    draw_verse_for_user
        { exDb with user_draws :=
            exDb.user_draws ++ [⟨normalizeEmail exEmail, exV1.id⟩] }
        exEmail 5 =
      (.ok ⟨exV1, true⟩,
       { exDb with user_draws :=
           exDb.user_draws ++ [⟨normalizeEmail exEmail, exV1.id⟩] }) :=
  draw_twice_idempotent exDb exEmail 0 5 exV1 (by decide) (by decide)
    (by decide) (by decide)

/-- Claim C4: two email strings that normalise identically — in
particular any two differing only by letter case or surrounding
whitespace — resolve to the same identity and hence to the same single
ledger row: a first draw with one and a draw with the other return the
same verse, and only the one row created by the first draw exists. -/
theorem email_variants_same_assignment (db : DB) (e1 e2 : Str)
    (k1 k2 : Nat) (v : Verse)
    (hvar : normalizeEmail e1 = normalizeEmail e2)
    (hU : (db.user_draws.map DrawRow.email).Nodup)
    (hids : (db.verses.map Verse.id).Nodup)
    (hnew : ∀ r ∈ db.user_draws, r.email ≠ normalizeEmail e1)
    (hpick : pickVerse db k1 = some v) :
    draw_verse_for_user db e1 k1 =
      (.ok ⟨v, false⟩,
       { db with user_draws :=
           db.user_draws ++ [⟨normalizeEmail e1, v.id⟩] }) ∧
    draw_verse_for_user
        { db with user_draws :=
            db.user_draws ++ [⟨normalizeEmail e1, v.id⟩] } e2 k2 =
      (.ok ⟨v, true⟩,
       { db with user_draws :=
           db.user_draws ++ [⟨normalizeEmail e1, v.id⟩] }) := by
  refine ⟨draw_fresh db e1 k1 v hpick hnew, ?_⟩
  apply draw_repeat _ e2 k2 ⟨normalizeEmail e1, v.id⟩ v
  · exact nodup_emails_snoc _ _ hU (fun r hr => hnew r hr)
  · exact hids
  · exact List.mem_append_right _ (List.mem_singleton_self _)
  · exact hvar
  · exact pickVerse_mem hpick
  · rfl

/-- Concrete case/whitespace variant of `exEmail`: a space, then
`A@B.co`, then a space. -/
def exEmailVariant : Str := [' ', 'A', '@', 'B', '.', 'c', 'o', ' ']

/-- Witness for C4: drawing with the variant and then with the plain
address returns the same verse and a single ledger row. -/
theorem email_variants_same_assignment_witness :
    draw_verse_for_user exDb exEmailVariant 1 =
      (.ok ⟨exV2, false⟩,
       { exDb with user_draws :=
           exDb.user_draws ++ [⟨normalizeEmail exEmailVariant, exV2.id⟩] }) ∧
    draw_verse_for_user
        { exDb with user_draws :=
            exDb.user_draws ++ [⟨normalizeEmail exEmailVariant, exV2.id⟩] }
        exEmail 7 =
      (.ok ⟨exV2, true⟩,
       { exDb with user_draws :=
           exDb.user_draws ++ [⟨normalizeEmail exEmailVariant, exV2.id⟩] }) :=
  email_variants_same_assignment exDb exEmailVariant exEmail 1 7 exV2
    (by decide) (by decide) (by decide) (by decide) (by decide)

/-- Claim C5: with an empty verse pool and no ledger row for the
identity, the draw returns the Unavailable outcome (Python `None`),
which the endpoint surfaces as a 404 response with `success = false`;
the persisted state is completely unchanged; and after a verse is added
a later draw for the same identity succeeds with a fresh assignment. -/
theorem empty_pool_unavailable (db : DB) (raw : Str) (k k2 : Nat)
    (t r : String)
    (hempty : db.verses = [])
    (hvalid : is_valid_email (stripStr raw) = true)
    (hnew : ∀ row ∈ db.user_draws,
      row.email ≠ normalizeEmail (stripStr raw)) :
    draw_verse_for_user db (stripStr raw) k = (.unavailable, db) ∧
    draw_verse_endpoint db (some raw) k = (⟨404, false, none, none⟩, db) ∧
    (draw_verse_for_user (add_verse db t r).2 (stripStr raw) k2).1 =
      .ok ⟨⟨db.nextVerseId, t, r⟩, false⟩ := by
  have hpick0 : pickVerse db k = none := by
    simp [pickVerse, hempty]
  have h1 : draw_verse_for_user db (stripStr raw) k = (.unavailable, db) := by
    unfold draw_verse_for_user
    rw [check_user_draw_miss db (stripStr raw) hnew, hpick0]
  refine ⟨h1, ?_, ?_⟩
  · simp [draw_verse_endpoint, hvalid, h1]
  · have hnew2 : ∀ row ∈ (add_verse db t r).2.user_draws,
        row.email ≠ normalizeEmail (stripStr raw) := by
      simpa [add_verse] using hnew
    have hpick2 : pickVerse (add_verse db t r).2 k2 =
        some ⟨db.nextVerseId, t, r⟩ := by
      simp [pickVerse, add_verse, hempty, Nat.mod_one]
    rw [draw_fresh _ (stripStr raw) k2 _ hpick2 hnew2]

/-- The empty database used in the C5 witness. -/
def exDbEmpty : DB := ⟨[], 1, []⟩

/-- Witness for C5 at the empty database. -/
theorem empty_pool_unavailable_witness :
    draw_verse_for_user exDbEmpty (stripStr exEmail) 0 =
      (.unavailable, exDbEmpty) ∧
    draw_verse_endpoint exDbEmpty (some exEmail) 0 =
      (⟨404, false, none, none⟩, exDbEmpty) ∧
    (draw_verse_for_user (add_verse exDbEmpty "t" "r").2
        (stripStr exEmail) 3).1 =
      .ok ⟨⟨exDbEmpty.nextVerseId, "t", "r"⟩, false⟩ :=
  empty_pool_unavailable exDbEmpty exEmail 0 3 "t" "r" (by decide)
    (by decide) (by decide)

/-- Claim C6: on a first-time draw the verse comes from exactly the
current pool, uniformly in the random index.  Index `j` selects
precisely the `j`-th verse of the current pool — prior assignments to
other identities exclude nothing — every pool verse is selected by its
own index, and no verse outside the current pool contents is ever
returned.  With the random index uniform on the pool size, each pool
entry is therefore chosen with equal probability. -/
theorem uniform_selection_support (db : DB) (email : Str) (j k2 : Nat)
    (v w : Verse)
    (hnew : ∀ r ∈ db.user_draws, r.email ≠ normalizeEmail email)
    (hj : j < db.verses.length)
    (hv : v ∈ db.verses)
    (hw : ((draw_verse_for_user db email k2).1).verse? = some w) :
    (draw_verse_for_user db email j).1 =
      .ok ⟨db.verses.get ⟨j, hj⟩, false⟩ ∧
    (draw_verse_for_user db email (db.verses.indexOf v)).1 =
      .ok ⟨v, false⟩ ∧
    w ∈ db.verses := by
  have hsel : ∀ (i : Nat) (hi : i < db.verses.length),
      (draw_verse_for_user db email i).1 =
        .ok ⟨db.verses.get ⟨i, hi⟩, false⟩ := by
    intro i hi
    have hpick : pickVerse db i = some (db.verses.get ⟨i, hi⟩) := by
      unfold pickVerse
      rw [Nat.mod_eq_of_lt hi]
      exact List.get?_eq_get hi
    rw [draw_fresh db email i _ hpick hnew]
  have hidx : db.verses.indexOf v < db.verses.length :=
    List.indexOf_lt_length.mpr hv
  refine ⟨hsel j hj, ?_, ?_⟩
  · rw [hsel _ hidx, List.indexOf_get hidx]
  · cases hpick2 : pickVerse db k2 with
    | none =>
      rw [show (draw_verse_for_user db email k2).1 = .unavailable by
        unfold draw_verse_for_user
        rw [check_user_draw_miss db email hnew, hpick2]] at hw
      cases hw
    | some c =>
      rw [draw_fresh db email k2 c hpick2 hnew] at hw
      cases hw
      exact pickVerse_mem hpick2

/-- Witness for C6 at the concrete database: index 1 selects the second
verse, the first verse is selected by its own index, and the returned
verse is in the pool. -/
theorem uniform_selection_support_witness :
    (draw_verse_for_user exDb exEmail 1).1 =
      .ok ⟨exDb.verses.get ⟨1, by decide⟩, false⟩ ∧
    (draw_verse_for_user exDb exEmail (exDb.verses.indexOf exV1)).1 =
      .ok ⟨exV1, false⟩ ∧
    exV2 ∈ exDb.verses :=
  uniform_selection_support exDb exEmail 1 1 exV1 exV2 (by decide)
    (by decide) (by decide) (by decide)

/-- Either a draw leaves the ledger unchanged, or it appends exactly one
row for an email not previously present. -/
theorem draw_ledger_cases (db : DB) (email : Str) (k : Nat) :
    (draw_verse_for_user db email k).2.user_draws = db.user_draws ∨
    ((db.user_draws.any (fun r => r.email = normalizeEmail email))
        = false ∧
     ∃ c, pickVerse db k = some c ∧
      (draw_verse_for_user db email k).2.user_draws =
        db.user_draws ++ [⟨normalizeEmail email, c.id⟩]) := by
  unfold draw_verse_for_user
  cases hc : check_user_draw db (normalizeEmail email) with
  | some v => exact Or.inl rfl
  | none =>
    cases hp : pickVerse db k with
    | none => exact Or.inl rfl
    | some c =>
      cases ha : db.user_draws.any
          (fun r => r.email = normalizeEmail email) with
      | true =>
        left
        simp [ha]
      | false =>
        right
        refine ⟨rfl, c, rfl, ?_⟩
        simp

/-- Claim C7: for every identity at most one ledger row ever exists, and
once created a row is never mutated or deleted by any operation:
`add_verse` and `delete_verse` leave `user_draws` untouched, a draw
preserves every existing row in place (the old ledger is a prefix of the
new one), and a draw preserves uniqueness of emails across the ledger. -/
theorem ledger_append_only (db : DB) (t r : String) (vid : Nat)
    (email : Str) (k : Nat)
    (hU : (db.user_draws.map DrawRow.email).Nodup) :
    (add_verse db t r).2.user_draws = db.user_draws ∧
    (delete_verse db vid).2.user_draws = db.user_draws ∧
    ((draw_verse_for_user db email k).2.user_draws).take
        db.user_draws.length = db.user_draws ∧
    (((draw_verse_for_user db email k).2.user_draws).map
        DrawRow.email).Nodup := by
  rcases draw_ledger_cases db email k with hsame | ⟨ha, c, _, happ⟩
  · rw [hsame]
    exact ⟨rfl, rfl, List.take_length _, hU⟩
  · rw [happ]
    refine ⟨rfl, rfl, List.take_left _ _, ?_⟩
    apply nodup_emails_snoc _ _ hU
    intro row hrow
    have := List.any_eq_false.mp ha row hrow
    simpa using this

/-- Witness for C7: at the concrete database with one ledger row none of
the operations disturbs the ledger, and uniqueness is preserved. -/
theorem ledger_append_only_witness :
    (add_verse exDb "t" "r").2.user_draws = exDb.user_draws ∧
    (delete_verse exDb 1).2.user_draws = exDb.user_draws ∧
    ((draw_verse_for_user exDb exEmail 0).2.user_draws).take
        exDb.user_draws.length = exDb.user_draws ∧
    (((draw_verse_for_user exDb exEmail 0).2.user_draws).map
        DrawRow.email).Nodup :=
  ledger_append_only exDb "t" "r" 1 exEmail 0 (by decide)

/-- A nonempty pool always yields a pick. -/
theorem pickVerse_isSome (db : DB) (k : Nat) (h : db.verses ≠ []) :
    ∃ c, pickVerse db k = some c := by
  have hlen : 0 < db.verses.length := List.length_pos.mpr h
  have hlt : k % db.verses.length < db.verses.length := Nat.mod_lt _ hlen
  exact ⟨_, List.get?_eq_get hlt⟩

/-- When the pre-check misses but a ledger row with the normalised email
exists in storage, the INSERT of `draw_verse_for_user` violates the
UNIQUE constraint: the call ends in the uncaught IntegrityError outcome
and nothing is committed. -/
theorem draw_integrity_raises (db : DB) (email : Str) (k : Nat)
    (row : DrawRow)
    (hchk : check_user_draw db (normalizeEmail email) = none)
    (hpool : db.verses ≠ [])
    (hrow : row ∈ db.user_draws)
    (hre : row.email = normalizeEmail email) :
    draw_verse_for_user db email k = (.integrityError, db) := by
  obtain ⟨c, hp⟩ := pickVerse_isSome db k hpool
  have hany : db.user_draws.any
      (fun r => r.email = normalizeEmail email) = true :=
    List.any_eq_true.mpr ⟨row, hrow, by simp [hre]⟩
  unfold draw_verse_for_user
  rw [hchk, hp]
  simp [hany]

/-- The join of `check_user_draw` hides a ledger row whose bound verse
is no longer in the pool. -/
theorem check_user_draw_dangling (db : DB) (email : Str) (row : DrawRow)
    (hU : (db.user_draws.map DrawRow.email).Nodup)
    (hrow : row ∈ db.user_draws)
    (hre : row.email = normalizeEmail email)
    (hdangling : ∀ v ∈ db.verses, v.id ≠ row.verse_id) :
    check_user_draw db (normalizeEmail email) = none := by
  unfold check_user_draw
  rw [lowerStr_normalizeEmail,
    find?_key_of_nodup DrawRow.email _ row _ hU hrow hre]
  show db.verses.find? (fun v => v.id = row.verse_id) = none
  rw [List.find?_eq_none.mpr]
  intro v hv
  simp only [decide_eq_true_eq]
  exact hdangling v hv

/-- Claim C8: if the verse bound to an identity's ledger row has been
deleted from the pool, `check_user_draw` returns `none` for that
identity (the row is invisible through the join), so a subsequent
`draw_verse_for_user` call takes the first-draw path and its INSERT of a
second row for the same email raises the email uniqueness violation
instead of returning the existing assignment. -/
theorem dangling_assignment_integrity_error (db : DB) (email : Str)
    (k : Nat) (row : DrawRow)
    (hU : (db.user_draws.map DrawRow.email).Nodup)
    (hrow : row ∈ db.user_draws)
    (hre : row.email = normalizeEmail email)
    (hdangling : ∀ v ∈ db.verses, v.id ≠ row.verse_id)
    (hpool : db.verses ≠ []) :
    check_user_draw db (normalizeEmail email) = none ∧
    draw_verse_for_user db email k = (.integrityError, db) := by
  have hchk := check_user_draw_dangling db email row hU hrow hre hdangling
  exact ⟨hchk, draw_integrity_raises db email k row hchk hpool hrow hre⟩

/-- The state for the dangling-assignment scenarios: the ledger binds
the identity to verse 1, which has been deleted; the pool holds only
verse 2. -/
def exDbDangling : DB := ⟨[exV2], 3, [⟨exEmail, 1⟩]⟩

/-- Witness for C8 at the dangling state. -/
theorem dangling_assignment_integrity_error_witness :
    check_user_draw exDbDangling (normalizeEmail exEmail) = none ∧
    draw_verse_for_user exDbDangling exEmail 0 =
      (.integrityError, exDbDangling) :=
  dangling_assignment_integrity_error exDbDangling exEmail 0 ⟨exEmail, 1⟩
    (by decide) (by decide) (by decide) (by decide) (by decide)

/-- Counterexample to claim C3 as stated: at a state where a ledger row
for the identity already exists in storage at insert time (here because
its bound verse was deleted, so the pre-check missed), the call does not
return a successful already-drawn response — it ends in the uncaught
IntegrityError outcome, an error surfaced to the caller. -/
theorem insert_conflict_not_caught_cex :
    (draw_verse_for_user exDbDangling exEmail 0).1 = .integrityError := by
  decide

/-- Claim C3 amended: when the INSERT hits the email uniqueness
constraint (a ledger row for the identity already exists in storage at
insert time although the pre-check found no joinable assignment),
`draw_verse_for_user` does not catch the violation: the IntegrityError
propagates to the caller as an error, no change is committed, and the
locally chosen verse is discarded without the existing assignment being
re-fetched. -/
theorem insert_conflict_uncaught (db : DB) (email : Str) (k : Nat)
    (hchk : check_user_draw db (normalizeEmail email) = none)
    (hpool : db.verses ≠ [])
    (hrow : ∃ row ∈ db.user_draws, row.email = normalizeEmail email) :
    draw_verse_for_user db email k = (.integrityError, db) := by
  obtain ⟨row, hr, hre⟩ := hrow
  exact draw_integrity_raises db email k row hchk hpool hr hre

/-- Witness for the amended C3 at the dangling state. -/
theorem insert_conflict_uncaught_witness :
    draw_verse_for_user exDbDangling exEmail 3 =
      (.integrityError, exDbDangling) :=
  insert_conflict_uncaught exDbDangling exEmail 3 (by decide) (by decide)
    ⟨⟨exEmail, 1⟩, by decide, by decide⟩

/-- Membership is preserved by ordered insertion. -/
theorem mem_insertDesc {x v : Verse} {l : List Verse} :
    x ∈ insertDesc v l ↔ x = v ∨ x ∈ l := by
  induction l with
  | nil => simp [insertDesc]
  | cons w ws ih =>
    rw [insertDesc]
    by_cases h : w.id ≤ v.id
    · simp [h, List.mem_cons]
    · simp only [h, if_false, List.mem_cons, ih]
      tauto

/-- Sorting by descending id preserves membership. -/
theorem mem_sortByIdDesc {x : Verse} {l : List Verse} :
    x ∈ sortByIdDesc l ↔ x ∈ l := by
  induction l with
  | nil => simp [sortByIdDesc]
  | cons v vs ih =>
    show x ∈ insertDesc v (sortByIdDesc vs) ↔ _
    rw [mem_insertDesc, ih, List.mem_cons]

/-- Claim C9: `add_verse` returns the fresh AUTOINCREMENT id and
`get_all_verses` afterwards lists an entry with that id, text and
reference; `delete_verse` makes a subsequent `get_verse_by_id` of the
same id return not-found; and `delete_verse` returns `true` exactly when
a verse with that id existed. -/
theorem verse_crud_roundtrip (db : DB) (t r : String) (vid : Nat) :
    (add_verse db t r).1 = db.nextVerseId ∧
    (⟨db.nextVerseId, t, r⟩ : Verse) ∈
      get_all_verses (add_verse db t r).2 ∧
    get_verse_by_id (delete_verse db vid).2 vid = none ∧
    ((delete_verse db vid).1 = true ↔ vid ∈ db.verses.map Verse.id) := by
  refine ⟨rfl, ?_, ?_, ?_⟩
  · rw [get_all_verses]
    exact mem_sortByIdDesc.mpr
      (List.mem_append_right _ (List.mem_singleton_self _))
  · unfold get_verse_by_id delete_verse
    rw [List.find?_eq_none.mpr]
    intro v hv
    rw [List.mem_filter] at hv
    have hne : v.id ≠ vid := by simpa using hv.2
    simpa using hne
  · unfold delete_verse
    simp [List.any_eq_true, List.mem_map]

/-- Splitting a list at the first character failing the predicate. -/
theorem takeWhile_dropWhile_split {p : Char → Bool} (l : Str) (x : Char)
    (r : Str) (hl : l.all p = true) (hx : p x = false) :
    (l ++ x :: r).takeWhile p = l ∧ (l ++ x :: r).dropWhile p = x :: r := by
  induction l with
  | nil =>
    constructor
    · rw [List.nil_append, List.takeWhile_cons, hx]
      simp
    · rw [List.nil_append, List.dropWhile_cons, hx]
      simp
  | cons c cs ih =>
    rw [List.all_cons, Bool.and_eq_true] at hl
    have h1 := ih hl.2
    constructor
    · rw [List.cons_append, List.takeWhile_cons, hl.1]
      simp [h1.1]
    · rw [List.cons_append, List.dropWhile_cons, hl.1]
      simp [h1.2]

/-- The domain matcher agrees with the structural description of the
domain piece: some split into a nonempty domain-character prefix, a
literal dot, and a trailing all-letter label of length at least 2. -/
theorem matchDomain_iff (d : Str) :
    matchDomain d = true ↔
      ∃ a t : Str, d = a ++ ['.'] ++ t ∧ a ≠ [] ∧
        a.all isDomainChar = true ∧ 2 ≤ t.length ∧
        t.all Char.isAlpha = true := by
  constructor
  · intro h
    unfold matchDomain at h
    rw [Bool.and_eq_true] at h
    obtain ⟨hlen, hm⟩ := h
    split at hm
    case h_1 rest heq =>
      rw [Bool.and_eq_true] at hm
      obtain ⟨hne, hall⟩ := hm
      refine ⟨rest.reverse, (d.reverse.takeWhile Char.isAlpha).reverse,
        ?_, ?_, ?_, ?_, ?_⟩
      · have hsplit : d.reverse.takeWhile Char.isAlpha ++
            ('.' :: rest) = d.reverse := by
          rw [← heq]
          exact List.takeWhile_append_dropWhile _ _
        calc d = d.reverse.reverse := (List.reverse_reverse d).symm
          _ = (d.reverse.takeWhile Char.isAlpha ++
                ('.' :: rest)).reverse := by rw [hsplit]
          _ = rest.reverse ++ ['.'] ++
                (d.reverse.takeWhile Char.isAlpha).reverse := by
              rw [List.reverse_append, List.reverse_cons]
      · intro h0
        rw [List.reverse_eq_nil_iff] at h0
        rw [h0] at hne
        simp at hne
      · rw [List.all_reverse]
        exact hall
      · rw [List.length_reverse]
        exact of_decide_eq_true hlen
      · rw [List.all_reverse]
        exact List.all_takeWhile
    case h_2 => cases hm
  · rintro ⟨a, t, rfl, hane, haall, ht2, hta⟩
    unfold matchDomain
    have hrev : (a ++ ['.'] ++ t).reverse = t.reverse ++ '.' :: a.reverse := by
      rw [List.append_assoc, List.reverse_append, List.reverse_append]
      simp
    have hsplit := takeWhile_dropWhile_split (p := Char.isAlpha) t.reverse
      '.' a.reverse (by rw [List.all_reverse]; exact hta) (by decide)
    rw [hrev, hsplit.1, hsplit.2]
    show (decide (2 ≤ t.reverse.length) &&
      (!(a.reverse.isEmpty) && a.reverse.all isDomainChar)) = true
    rw [Bool.and_eq_true, Bool.and_eq_true]
    refine ⟨?_, ?_, ?_⟩
    · rw [List.length_reverse]
      exact decide_eq_true ht2
    · have h0 : a.reverse ≠ [] := by
        intro h1
        rw [List.reverse_eq_nil_iff] at h1
        exact hane h1
      rw [List.isEmpty_eq_false.mpr h0]
      rfl
    · rw [List.all_reverse]
      exact haall

/-- The matcher for the regex body agrees with the structural
description of the accepted strings. -/
theorem matchCore_iff (s : Str) :
    matchCore s = true ↔ specEmailShape s := by
  unfold specEmailShape
  constructor
  · intro h
    unfold matchCore at h
    split at h
    case h_1 domain heq =>
      rw [Bool.and_eq_true] at h
      obtain ⟨hne, hdom⟩ := h
      obtain ⟨a, t, hd, hane, haall, ht2, hta⟩ :=
        (matchDomain_iff domain).mp hdom
      refine ⟨s.takeWhile isLocalChar, a, t, ?_, ?_,
        List.all_takeWhile, hane, haall, ht2, hta⟩
      · have hsp : s.takeWhile isLocalChar ++
            s.dropWhile isLocalChar = s :=
          List.takeWhile_append_dropWhile _ _
        rw [heq, hd] at hsp
        calc s = s.takeWhile isLocalChar ++ '@' :: (a ++ ['.'] ++ t) :=
              hsp.symm
          _ = s.takeWhile isLocalChar ++ ['@'] ++ a ++ ['.'] ++ t := by
              simp [List.append_assoc]
      · rw [Bool.not_eq_true', List.isEmpty_eq_false] at hne
        exact hne
    case h_2 => cases h
  · rintro ⟨l, d, t, rfl, hlne, hlall, hdne, hdall, ht2, hta⟩
    have hform : l ++ ['@'] ++ d ++ ['.'] ++ t =
        l ++ '@' :: (d ++ ['.'] ++ t) := by
      simp [List.append_assoc]
    have hat : isLocalChar '@' = false := by decide
    have hsplit := takeWhile_dropWhile_split (p := isLocalChar) l '@'
      (d ++ ['.'] ++ t) hlall hat
    unfold matchCore
    rw [hform, hsplit.1, hsplit.2]
    show (!l.isEmpty && matchDomain (d ++ ['.'] ++ t)) = true
    rw [Bool.and_eq_true]
    constructor
    · rw [Bool.not_eq_true', List.isEmpty_eq_false]
      exact hlne
    · exact (matchDomain_iff _).mpr ⟨d, t, rfl, hdne, hdall, ht2, hta⟩

/-- A string of the spec's email shape ends in a letter. -/
theorem specEmailShape_last {s : Str} (h : specEmailShape s) :
    ∃ c, s.getLast? = some c ∧ c.isAlpha = true := by
  obtain ⟨l, d, t, rfl, _, _, _, _, ht2, hta⟩ := h
  have htne : t ≠ [] := by
    intro h0
    rw [h0] at ht2
    simp at ht2
  obtain ⟨c, hc⟩ :=
    Option.isSome_iff_exists.mp (List.getLast?_isSome.mpr htne)
  refine ⟨c, ?_, ?_⟩
  · rw [show l ++ ['@'] ++ d ++ ['.'] ++ t =
        (l ++ ['@'] ++ d ++ ['.']) ++ t by simp [List.append_assoc]]
    rw [List.getLast?_append, hc]
    rfl
  · exact List.all_eq_true.mp hta c (List.mem_of_mem_getLast? hc)

/-- The subject `a@b.co` followed by a newline. -/
def exBadEmail : Str := exEmail ++ ['\n']

/-- Counterexample to claim C10 as stated: Python's dollar anchor also
matches just before a single trailing newline, so `is_valid_email`
accepts `a@b.co` followed by a newline — a string that does not consist
of local-part characters, an at-sign and a dotted letter-final domain. -/
theorem email_regex_newline_cex :
    is_valid_email exBadEmail = true ∧ ¬ specEmailShape exBadEmail := by
  constructor
  · decide
  · intro h
    obtain ⟨c, hc, hca⟩ := specEmailShape_last h
    have hl : exBadEmail.getLast? = some '\n' := by decide
    rw [hl] at hc
    cases hc
    exact absurd hca (by decide)

/-- Claim C10 amended: `is_valid_email` is a pure function returning
`true` exactly for the strings that, after discarding at most one
trailing newline (the end-of-subject behaviour of Python's dollar
anchor), consist of one or more local-part characters, an at-sign, and a
domain of domain characters containing a dot whose final label has at
least two letters; and every draw request whose stripped email fails the
check is answered with a 400 response before any ledger operation runs,
leaving all state unchanged. -/
theorem email_regex_spec (s : Str) (db : DB) (raw : Str) (k : Nat)
    (hinvalid : is_valid_email (stripStr raw) = false) :
    (is_valid_email s = true ↔ specEmailShape (stripFinalNewline s)) ∧
    draw_verse_endpoint db (some raw) k =
      (⟨400, false, none, none⟩, db) := by
  constructor
  · exact matchCore_iff (stripFinalNewline s)
  · simp [draw_verse_endpoint, hinvalid]

/-- Witness for the amended C10: the plain address satisfies the
characterisation, and a request with the invalid email `x` is answered
with a 400 response and an unchanged state. -/
theorem email_regex_spec_witness :
    (is_valid_email exEmail = true ↔
      specEmailShape (stripFinalNewline exEmail)) ∧
    draw_verse_endpoint exDb (some ['x']) 0 =
      (⟨400, false, none, none⟩, exDb) :=
  email_regex_spec exEmail exDb ['x'] 0 (by decide)

/-! Invariant for the two-session race. -/

/-- A session that has finished with a successful result. -/
def SessOk (s : Session) : Prop :=
  ∃ r, s.phase = .finished (.ok r)

/-- Per-session invariant of the race, relative to the initial pool
`vs0` and the common normalised identity. -/
def PhaseInv (vs0 : List Verse) (e : Str) (db : DB) (s : Session) :
    Prop :=
  normalizeEmail s.email = e ∧
  (∀ c, s.phase = .pending c → c ∈ vs0) ∧
  (∀ r, s.phase = .finished (.ok r) →
    r.verse ∈ vs0 ∧ rowsFor db e = [⟨e, r.verse.id⟩]) ∧
  (s.phase = .finished .unavailable → vs0 = []) ∧
  (s.phase = .finished .integrityError → rowsFor db e ≠ [])

/-- Joint invariant of the race: draws never write the pool, a ledger
row for the identity only exists once some session has won, and both
sessions satisfy the per-session invariant. -/
def RaceInv (vs0 : List Verse) (e : Str) (db : DB) (a b : Session) :
    Prop :=
  db.verses = vs0 ∧
  (rowsFor db e ≠ [] → SessOk a ∨ SessOk b) ∧
  PhaseInv vs0 e db a ∧ PhaseInv vs0 e db b

/-- The joint invariant is symmetric in the two sessions. -/
theorem raceInv_swap {vs0 : List Verse} {e : Str} {db : DB}
    {a b : Session} (h : RaceInv vs0 e db a b) : RaceInv vs0 e db b a :=
  ⟨h.1, fun hne => (h.2.1 hne).symm, h.2.2.2, h.2.2.1⟩

/-- An empty pick means an empty pool. -/
theorem pickVerse_eq_none {db : DB} {k : Nat}
    (h : pickVerse db k = none) : db.verses = [] := by
  by_contra h0
  obtain ⟨c, hc⟩ := pickVerse_isSome db k h0
  rw [h] at hc
  cases hc

/-- Members of a list with pairwise distinct ids are determined by their
id. -/
theorem mem_id_inj {vs : List Verse} (hids : (vs.map Verse.id).Nodup)
    {v w : Verse} (hv : v ∈ vs) (hw : w ∈ vs) (h : v.id = w.id) :
    v = w := by
  have h1 := find?_key_of_nodup Verse.id vs v v.id hids hv rfl
  have h2 := find?_key_of_nodup Verse.id vs w v.id hids hw h.symm
  rw [h1] at h2
  exact Option.some.inj h2

/-- A successful ledger lookup pins both the head ledger row for the
identity and the verse it references. -/
theorem check_user_draw_some {db : DB} {e : Str} {v : Verse}
    (h : check_user_draw db (normalizeEmail e) = some v) :
    v ∈ db.verses ∧
    ∃ row, (rowsFor db (normalizeEmail e)).head? = some row ∧
      row.verse_id = v.id := by
  unfold check_user_draw at h
  rw [lowerStr_normalizeEmail] at h
  cases hf : db.user_draws.find?
      (fun r => r.email = normalizeEmail e) with
  | none =>
    rw [hf] at h
    cases h
  | some row =>
    rw [hf] at h
    refine ⟨List.mem_of_find?_eq_some h, row, ?_, ?_⟩
    · show (db.user_draws.filter
          (fun r => r.email = normalizeEmail e)).head? = some row
      rw [← find?_eq_head?_filter]
      exact hf
    · have := List.find?_some h
      simp only [decide_eq_true_eq] at this
      exact this.symm

/-- One step of the first session preserves the joint invariant. -/
theorem raceInv_step_a (vs0 : List Verse) (e : Str) (db : DB)
    (a b : Session) (hinv : RaceInv vs0 e db a b) :
    RaceInv vs0 e (sessionStep db a).1 (sessionStep db a).2 b := by
  obtain ⟨hv, hw, ⟨hea, hpA, hokA, hunA, hieA⟩, hPB⟩ := hinv
  obtain ⟨emA, kA, phA⟩ := a
  have heA : normalizeEmail emA = e := hea
  cases phA with
  | finished out =>
    exact ⟨hv, hw, ⟨hea, hpA, hokA, hunA, hieA⟩, hPB⟩
  | ready =>
    cases hchk : check_user_draw db (normalizeEmail emA) with
    | some v =>
      have hstep : sessionStep db ⟨emA, kA, .ready⟩ =
          (db, ⟨emA, kA, .finished (.ok ⟨v, true⟩)⟩) := by
        unfold sessionStep
        rw [hchk]
      rw [hstep]
      obtain ⟨hvm, row, hhd, hrid⟩ := check_user_draw_some (e := emA) hchk
      rw [heA] at hhd
      have hne : rowsFor db e ≠ [] := by
        intro h0
        rw [h0] at hhd
        cases hhd
      have hokB : SessOk b := by
        rcases hw hne with ⟨r0, h0⟩ | hb
        · cases h0
        · exact hb
      obtain ⟨rb, hrb⟩ := hokB
      obtain ⟨_, hrowsB⟩ := hPB.2.2.1 rb hrb
      refine ⟨hv, fun _ => Or.inl ⟨⟨v, true⟩, rfl⟩,
        ⟨heA, ?_, ?_, ?_, ?_⟩, hPB⟩
      · intro c hc
        cases hc
      · intro r hr
        have h1 : (DrawOutcome.ok ⟨v, true⟩) = .ok r := by
          injection hr
        have h2 : (⟨v, true⟩ : DrawResult) = r := by
          injection h1
        subst h2
        refine ⟨hv ▸ hvm, ?_⟩
        rw [hrowsB] at hhd
        have hrow : row = ⟨e, rb.verse.id⟩ := by
          cases hhd
          rfl
        rw [hrowsB]
        rw [hrow] at hrid
        simp only at hrid
        rw [hrid]
      · intro h0
        cases h0
      · intro h0
        cases h0
    | none =>
      cases hpick : pickVerse db kA with
      | none =>
        have hstep : sessionStep db ⟨emA, kA, .ready⟩ =
            (db, ⟨emA, kA, .finished .unavailable⟩) := by
          unfold sessionStep
          rw [hchk, hpick]
        rw [hstep]
        refine ⟨hv, ?_, ⟨heA, ?_, ?_, ?_, ?_⟩, hPB⟩
        · intro hne
          rcases hw hne with ⟨r0, h0⟩ | hb
          · cases h0
          · exact Or.inr hb
        · intro c hc
          cases hc
        · intro r hr
          have h1 : (DrawOutcome.unavailable) = .ok r := by
            injection hr
          cases h1
        · intro _
          rw [← hv]
          exact pickVerse_eq_none hpick
        · intro h0
          have h1 : (DrawOutcome.unavailable) = .integrityError := by
            injection h0
          cases h1
      | some c =>
        have hstep : sessionStep db ⟨emA, kA, .ready⟩ =
            (db, ⟨emA, kA, .pending c⟩) := by
          unfold sessionStep
          rw [hchk, hpick]
        rw [hstep]
        refine ⟨hv, ?_, ⟨heA, ?_, ?_, ?_, ?_⟩, hPB⟩
        · intro hne
          rcases hw hne with ⟨r0, h0⟩ | hb
          · cases h0
          · exact Or.inr hb
        · intro c' hc'
          have h1 : c = c' := by
            injection hc'
          rw [← h1, ← hv]
          exact pickVerse_mem hpick
        · intro r hr
          cases hr
        · intro h0
          cases h0
        · intro h0
          cases h0
  | pending c =>
    cases hany : db.user_draws.any
        (fun r => r.email = normalizeEmail emA) with
    | true =>
      have hstep : sessionStep db ⟨emA, kA, .pending c⟩ =
          (db, ⟨emA, kA, .finished .integrityError⟩) := by
        simp [sessionStep, hany]
      rw [hstep]
      have hne : rowsFor db e ≠ [] := by
        obtain ⟨r, hr, hpr⟩ := List.any_eq_true.mp hany
        rw [heA] at hpr
        simp only [decide_eq_true_eq] at hpr
        exact List.ne_nil_of_mem (List.mem_filter.mpr ⟨hr, by simp [hpr]⟩)
      refine ⟨hv, fun _ => ?_, ⟨heA, ?_, ?_, ?_, ?_⟩, hPB⟩
      · rcases hw hne with ⟨r0, h0⟩ | hb
        · cases h0
        · exact Or.inr hb
      · intro c' hc'
        cases hc'
      · intro r hr
        have h1 : (DrawOutcome.integrityError) = .ok r := by
          injection hr
        cases h1
      · intro h0
        have h1 : (DrawOutcome.integrityError) = .unavailable := by
          injection h0
        cases h1
      · intro _
        exact hne
    | false =>
      have hstep : sessionStep db ⟨emA, kA, .pending c⟩ =
          ({ db with user_draws :=
              db.user_draws ++ [⟨normalizeEmail emA, c.id⟩] },
           ⟨emA, kA, .finished (.ok ⟨c, false⟩)⟩) := by
        simp [sessionStep, hany]
      rw [hstep]
      have hempty : db.user_draws.filter (fun r => r.email = e) = [] := by
        rw [List.filter_eq_nil_iff]
        intro r hr
        have := List.any_eq_false.mp hany r hr
        rw [heA] at this
        simpa using this
      have hrows : ((db.user_draws ++
          ([⟨normalizeEmail emA, c.id⟩] : List DrawRow)).filter
            (fun r => r.email = e)) = [⟨e, c.id⟩] := by
        rw [List.filter_append, hempty, heA]
        simp
      refine ⟨hv, fun _ => Or.inl ⟨⟨c, false⟩, rfl⟩,
        ⟨heA, ?_, ?_, ?_, ?_⟩, ?_⟩
      · intro c' hc'
        cases hc'
      · intro r hr
        have h1 : (DrawOutcome.ok ⟨c, false⟩) = .ok r := by
          injection hr
        have h2 : (⟨c, false⟩ : DrawResult) = r := by
          injection h1
        subst h2
        exact ⟨hpA c rfl, hrows⟩
      · intro h0
        have h1 : (DrawOutcome.ok ⟨c, false⟩) = .unavailable := by
          injection h0
        cases h1
      · intro h0
        have h1 : (DrawOutcome.ok ⟨c, false⟩) = .integrityError := by
          injection h0
        cases h1
      · obtain ⟨heb, hpB, hokB, hunB, hieB⟩ := hPB
        refine ⟨heb, hpB, ?_, hunB, ?_⟩
        · intro r hr
          obtain ⟨_, hrowsB⟩ := hokB r hr
          have h0 : rowsFor db e = [] := hempty
          have h1 := h0.symm.trans hrowsB
          cases h1
        · intro _
          show ((db.user_draws ++
              ([⟨normalizeEmail emA, c.id⟩] : List DrawRow)).filter
                (fun r => r.email = e)) ≠ []
          rw [hrows]
          exact List.cons_ne_nil _ _

/-- The two-phase session model is faithful to `draw_verse_for_user`:
running one session's two steps back to back yields exactly the state
and the outcome of the sequential call. -/
theorem sessionStep_realizes_draw (db : DB) (e : Str) (k : Nat) :
    (sessionStep (sessionStep db ⟨e, k, .ready⟩).1
        (sessionStep db ⟨e, k, .ready⟩).2).1 =
      (draw_verse_for_user db e k).2 ∧
    (sessionStep (sessionStep db ⟨e, k, .ready⟩).1
        (sessionStep db ⟨e, k, .ready⟩).2).2.phase =
      .finished (draw_verse_for_user db e k).1 := by
  cases hchk : check_user_draw db (normalizeEmail e) with
  | some v =>
    have h1 : sessionStep db ⟨e, k, .ready⟩ =
        (db, ⟨e, k, .finished (.ok ⟨v, true⟩)⟩) := by
      unfold sessionStep
      rw [hchk]
    have h2 : draw_verse_for_user db e k = (.ok ⟨v, true⟩, db) := by
      unfold draw_verse_for_user
      rw [hchk]
    rw [h1, h2]
    exact ⟨rfl, rfl⟩
  | none =>
    cases hp : pickVerse db k with
    | none =>
      have h1 : sessionStep db ⟨e, k, .ready⟩ =
          (db, ⟨e, k, .finished .unavailable⟩) := by
        unfold sessionStep
        rw [hchk, hp]
      have h2 : draw_verse_for_user db e k = (.unavailable, db) := by
        unfold draw_verse_for_user
        rw [hchk, hp]
      rw [h1, h2]
      exact ⟨rfl, rfl⟩
    | some c =>
      have h1 : sessionStep db ⟨e, k, .ready⟩ = (db, ⟨e, k, .pending c⟩) := by
        unfold sessionStep
        rw [hchk, hp]
      rw [h1]
      cases ha : db.user_draws.any
          (fun r => r.email = normalizeEmail e) with
      | true =>
        have h2 : sessionStep db ⟨e, k, .pending c⟩ =
            (db, ⟨e, k, .finished .integrityError⟩) := by
          simp [sessionStep, ha]
        have h3 : draw_verse_for_user db e k = (.integrityError, db) := by
          unfold draw_verse_for_user
          rw [hchk, hp]
          simp [ha]
        rw [h2, h3]
        exact ⟨rfl, rfl⟩
      | false =>
        have h2 : sessionStep db ⟨e, k, .pending c⟩ =
            ({ db with user_draws :=
                db.user_draws ++ [⟨normalizeEmail e, c.id⟩] },
             ⟨e, k, .finished (.ok ⟨c, false⟩)⟩) := by
          simp [sessionStep, ha]
        have h3 : draw_verse_for_user db e k =
            (.ok ⟨c, false⟩,
             { db with user_draws :=
                 db.user_draws ++ [⟨normalizeEmail e, c.id⟩] }) := by
          unfold draw_verse_for_user
          rw [hchk, hp]
          simp [ha]
        rw [h2, h3]
        exact ⟨rfl, rfl⟩

/-- One step of the second session preserves the joint invariant. -/
theorem raceInv_step_b (vs0 : List Verse) (e : Str) (db : DB)
    (a b : Session) (hinv : RaceInv vs0 e db a b) :
    RaceInv vs0 e (sessionStep db b).1 a (sessionStep db b).2 :=
  raceInv_swap (raceInv_step_a vs0 e db b a (raceInv_swap hinv))

/-- The joint invariant holds after every schedule. -/
theorem runSched_inv (vs0 : List Verse) (e : Str) (sched : List Bool) :
    ∀ (db : DB) (a b : Session), RaceInv vs0 e db a b →
      RaceInv vs0 e (runSched sched db a b).1
        (runSched sched db a b).2.1 (runSched sched db a b).2.2 := by
  induction sched with
  | nil =>
    intro db a b h
    exact h
  | cons x rest ih =>
    intro db a b h
    cases x
    · exact ih _ _ _ (raceInv_step_b vs0 e db a b h)
    · exact ih _ _ _ (raceInv_step_a vs0 e db a b h)

/-- Claim C2 amended: among two concurrent first-time draws for the same
identity with a non-empty pool, under every interleaving after which
both calls have finished, exactly one ledger row exists for the identity
and the two calls never report different verses — but a losing call may
end in the uncaught IntegrityError instead of observing the winner's
verse, so not all callers are guaranteed to receive the verse. -/
theorem race_single_assignment (db0 : DB) (e : Str) (ka kb : Nat)
    (sched : List Bool) (oa ob : DrawOutcome)
    (hids : (db0.verses.map Verse.id).Nodup)
    (hnew : rowsFor db0 (normalizeEmail e) = [])
    (hpool : db0.verses ≠ [])
    (hfa : ((runSched sched db0 ⟨e, ka, .ready⟩
        ⟨e, kb, .ready⟩).2.1).phase = .finished oa)
    (hfb : ((runSched sched db0 ⟨e, ka, .ready⟩
        ⟨e, kb, .ready⟩).2.2).phase = .finished ob) :
    (rowsFor (runSched sched db0 ⟨e, ka, .ready⟩
        ⟨e, kb, .ready⟩).1 (normalizeEmail e)).length = 1 ∧
    (oa = .integrityError ∨ ob = .integrityError ∨
      oa.verse? = ob.verse?) := by
  have hinit : RaceInv db0.verses (normalizeEmail e) db0
      ⟨e, ka, .ready⟩ ⟨e, kb, .ready⟩ := by
    refine ⟨rfl, fun hne => absurd hnew hne,
      ⟨rfl, ?_, ?_, ?_, ?_⟩, ⟨rfl, ?_, ?_, ?_, ?_⟩⟩
    · exact fun c hc => by cases hc
    · exact fun r hr => by cases hr
    · exact fun h0 => by cases h0
    · exact fun h0 => by cases h0
    · exact fun c hc => by cases hc
    · exact fun r hr => by cases hr
    · exact fun h0 => by cases h0
    · exact fun h0 => by cases h0
  have hend := runSched_inv db0.verses (normalizeEmail e) sched db0
    _ _ hinit
  obtain ⟨hv, hw, ⟨_, _, hokA, hunA, hieA⟩,
    ⟨_, _, hokB, hunB, hieB⟩⟩ := hend
  cases oa with
  | unavailable =>
    exact absurd (hunA hfa) hpool
  | ok ra =>
    obtain ⟨hmemA, hrowsA⟩ := hokA ra hfa
    cases ob with
    | unavailable =>
      exact absurd (hunB hfb) hpool
    | integrityError =>
      refine ⟨?_, Or.inr (Or.inl rfl)⟩
      rw [hrowsA]
      rfl
    | ok rb =>
      obtain ⟨hmemB, hrowsB⟩ := hokB rb hfb
      have h1 := hrowsA.symm.trans hrowsB
      have h2 : ra.verse.id = rb.verse.id := by
        have h3 : (⟨normalizeEmail e, ra.verse.id⟩ : DrawRow) =
            ⟨normalizeEmail e, rb.verse.id⟩ := by
          injection h1
        injection h3
      have h5 : ra.verse = rb.verse := mem_id_inj hids hmemA hmemB h2
      refine ⟨?_, Or.inr (Or.inr ?_)⟩
      · rw [hrowsA]
        rfl
      · show some ra.verse = some rb.verse
        rw [h5]
  | integrityError =>
    cases ob with
    | unavailable =>
      exact absurd (hunB hfb) hpool
    | ok rb =>
      obtain ⟨_, hrowsB⟩ := hokB rb hfb
      refine ⟨?_, Or.inl rfl⟩
      rw [hrowsB]
      rfl
    | integrityError =>
      exfalso
      have hne := hieA hfa
      rcases hw hne with ⟨r0, h0⟩ | ⟨r0, h0⟩
      · have h1 := hfa.symm.trans h0
        have h2 : (DrawOutcome.integrityError) = .ok r0 := by
          injection h1
        cases h2
      · have h1 := hfb.symm.trans h0
        have h2 : (DrawOutcome.integrityError) = .ok r0 := by
          injection h1
        cases h2

/-- Counterexample to claim C2 as stated: with one verse and an empty
ledger, scheduling two first-time draws for the same identity as
lookup, lookup, insert, insert makes the first call succeed while the
second ends in the uncaught IntegrityError outcome — it does not
observe the winner's verse, so not all of the concurrent calls return
the single verse. -/
theorem race_loser_errors_cex :
    ((runSched [true, false, true, false] ⟨[exV1], 2, []⟩
        ⟨exEmail, 0, .ready⟩ ⟨exEmail, 1, .ready⟩).2.1).phase =
      .finished (.ok ⟨exV1, false⟩) ∧
    ((runSched [true, false, true, false] ⟨[exV1], 2, []⟩
        ⟨exEmail, 0, .ready⟩ ⟨exEmail, 1, .ready⟩).2.2).phase =
      .finished .integrityError := by
  decide

/-- Witness for the amended C2 at the concrete race: one ledger row for
the identity, and the integrityError disjunct holds. -/
theorem race_single_assignment_witness :
    (rowsFor (runSched [true, false, true, false] ⟨[exV1], 2, []⟩
        ⟨exEmail, 0, .ready⟩ ⟨exEmail, 1, .ready⟩).1
      (normalizeEmail exEmail)).length = 1 ∧
    ((DrawOutcome.ok ⟨exV1, false⟩) = .integrityError ∨
      (DrawOutcome.integrityError) = .integrityError ∨
      (DrawOutcome.ok ⟨exV1, false⟩).verse? =
        (DrawOutcome.integrityError).verse?) :=
  race_single_assignment ⟨[exV1], 2, []⟩ exEmail 0 1
    [true, false, true, false] (.ok ⟨exV1, false⟩) .integrityError
    (by decide) (by decide) (by decide) (by decide) (by decide)

end Verset
